import Mathlib

/-!
Verification of the go-share encrypted file storage engine.

The definitions below are a shallow embedding of the Go sources:
`pkg/files/encryption.go` (EncryptData / DecryptData / EncryptFile /
DecryptFile), the file upload routine `UploadFile`, the download routine
`DownloadFile` (pkg/files/download.go), and the metadata entity and its
`UpdateFile` method (pkg/files/file.go).  Bytes are modelled as `Nat`,
byte buffers as `List Nat`, Go strings as Lean `String` (reasoned about
through their character lists), the filesystem as an association list from
paths to byte contents, and the AES-GCM primitive of Go's standard library
as an abstract `GCM` structure whose laws (`LawfulGCM`) capture exactly the
guarantees of a deterministic authenticated cipher: sealing appends a
16-byte tag, opening a sealed unit returns the plaintext, and opening
succeeds only on exact seal outputs.
-/

set_option autoImplicit false

namespace GoShare

abbrev Byte := Nat

/-- Nonce size of AES-GCM as used by the Go code (`gcm.NonceSize()`). -/
def gcmNonceSize : Nat := 12

/-- Authentication tag size of AES-GCM (`gcm.Overhead()`). -/
def gcmTagSize : Nat := 16

/-- Chunk size used by `EncryptFile` (`chunkSize := 64 * 1024`). -/
def chunkSize : Nat := 64 * 1024

/-- The key-length test of `aes.NewCipher` and of the explicit checks in
`UploadFile` and `DownloadFile`: 16, 24 or 32 bytes. -/
def validKeyLength (key : List Byte) : Bool :=
  key.length == 16 || key.length == 24 || key.length == 32

/-- Abstract keyed AES-GCM instance (the value `gcm` obtained in the Go code
from `cipher.NewGCM(block)` for one fixed key).  `Seal nonce p` returns
ciphertext followed by the tag; `Open nonce c` authenticates and decrypts. -/
structure GCM where
  Seal : List Byte → List Byte → List Byte
  Open : List Byte → List Byte → Option (List Byte)

/-- The laws of a deterministic authenticated cipher, as guaranteed by
AES-GCM for one fixed key: seal output is plaintext length plus the tag,
opening a sealed unit restores the plaintext, and opening only ever
succeeds on the seal of the returned plaintext (for a fixed key and nonce
the valid tag of a ciphertext is unique). -/
structure LawfulGCM (g : GCM) : Prop where
  seal_length : ∀ n p, (g.Seal n p).length = p.length + gcmTagSize
  open_seal : ∀ n p, g.Open n (g.Seal n p) = some p
  open_eq_seal : ∀ n c p, g.Open n c = some p → c = g.Seal n p

/-- The read loop of `EncryptFile`: split the input into chunks of at most
`k` bytes; a read returning `n == 0` ends the loop, so empty input yields
no chunk at all.  The Go code always calls this with `k = chunkSize`;
the `0` case is unreachable there. -/
def chunkify : Nat → List Byte → List (List Byte)
  | _, [] => []
  | 0, _ :: _ => []
  | k + 1, a :: l => (a :: l).take (k + 1) :: chunkify (k + 1) ((a :: l).drop (k + 1))
termination_by _ l => l.length
decreasing_by simp [List.length_drop]; omega

/-- `EncryptData data key` (encryption.go): a fresh `nonce` prepended to
`gcm.Seal(nonce, nonce, data, nil)` minus the nonce copy, i.e. nonce ++
ciphertext ++ tag.  The nonce drawn from `crypto/rand` is passed explicitly. -/
def EncryptData (g : GCM) (key nonce data : List Byte) : Except Unit (List Byte) :=
  if validKeyLength key = false then .error ()
  else .ok (nonce ++ g.Seal nonce data)

inductive CryptoError
  | invalidKey
  | tooShort
  | authFailed
deriving DecidableEq

/-- `DecryptData data key` (encryption.go): key-length check via
`aes.NewCipher`, the `len(data) < nonceSize` guard, then one single
`gcm.Open` of everything after the nonce. -/
def DecryptData (g : GCM) (key data : List Byte) : Except CryptoError (List Byte) :=
  if validKeyLength key = false then .error .invalidKey
  else if data.length < gcmNonceSize then .error .tooShort
  else
    match g.Open (data.take gcmNonceSize) (data.drop gcmNonceSize) with
    | some p => .ok p
    | none => .error .authFailed

/-- The bytes `EncryptFile` writes to the temporary file and then renames
over `filePath`: the single session nonce, followed by the concatenation of
`gcm.Seal(nil, nonce, buffer[:n], nil)` for each chunk read from the input.
Note: one nonce for the whole file, and no framing between sealed chunks. -/
def EncryptFileBytes (g : GCM) (nonce content : List Byte) : List Byte :=
  nonce ++ ((chunkify chunkSize content).map (g.Seal nonce)).flatten

/-- `EncryptFile` (encryption.go): validates the key via `aes.NewCipher`,
then produces `EncryptFileBytes`.  File I/O failures are not modelled; the
explicit `nonce` stands for the randomness drawn from `crypto/rand`. -/
def EncryptFile (g : GCM) (key nonce content : List Byte) : Except CryptoError (List Byte) :=
  if validKeyLength key = false then .error .invalidKey
  else .ok (EncryptFileBytes g nonce content)

/-- `DecryptFile` (encryption.go): reads the whole file and calls
`DecryptData` on it. -/
def DecryptFile (g : GCM) (key fileBytes : List Byte) : Except CryptoError (List Byte) :=
  DecryptData g key fileBytes

/-- The argument pairs (nonce, plaintext chunk) of the successive
`gcm.Seal` calls made by the loop of `EncryptFile`.  The loop never
refreshes `nonce`, so every call receives the session nonce. -/
def EncryptFileSealCalls (nonce content : List Byte) : List (List Byte × List Byte) :=
  (chunkify chunkSize content).map (fun c => (nonce, c))

/-- Seal of a concrete cipher used to instantiate the abstract theorems:
append sixteen zero bytes as the tag. -/
def toySeal (_ : List Byte) (p : List Byte) : List Byte :=
  p ++ List.replicate gcmTagSize 0

/-- Open of the concrete cipher: accept exactly the outputs of `toySeal`. -/
def toyOpen (_ : List Byte) (c : List Byte) : Option (List Byte) :=
  if gcmTagSize ≤ c.length ∧ c = c.take (c.length - gcmTagSize) ++ List.replicate gcmTagSize 0
  then some (c.take (c.length - gcmTagSize)) else none

/-- A concrete cipher satisfying `LawfulGCM`. -/
def toyGCM : GCM := ⟨toySeal, toyOpen⟩

/-- Splitting a character list at separators, accumulating the current
segment in reverse: the segment decomposition underlying `path.Clean`. -/
def splitSegsAux : List Char → List Char → List (List Char)
  | cur, [] => [cur.reverse]
  | cur, c :: cs =>
    if c == '/' then cur.reverse :: splitSegsAux [] cs else splitSegsAux (c :: cur) cs

/-- All separator-delimited segments of a path (Go's view of `a/b/c`). -/
def splitSegs (s : List Char) : List (List Char) := splitSegsAux [] s

/-- Rejoin segments with the separator (`strings.Join(elems, "/")`). -/
def joinSegs : List (List Char) → List Char
  | [] => []
  | [x] => x
  | x :: y :: ys => x ++ '/' :: joinSegs (y :: ys)

/-- The `..` case of Go's `filepath.Clean` loop, on the output stack (kept
in reverse): pop an element if one can be backtracked over, otherwise keep
the `..` (relative paths) or drop it (rooted paths). -/
def dotdotStep (rooted : Bool) : List (List Char) → List (List Char)
  | [] => if rooted then [] else [['.', '.']]
  | a :: as => if rooted then as else if a = ['.', '.'] then ['.', '.'] :: a :: as else as

/-- The main loop of `filepath.Clean`: drop empty and `.` segments, handle
`..` via `dotdotStep`, push every other segment. -/
def cleanLoop (rooted : Bool) : List (List Char) → List (List Char) → List (List Char)
  | acc, [] => acc
  | acc, seg :: rest =>
    if seg = [] ∨ seg = ['.'] then cleanLoop rooted acc rest
    else if seg = ['.', '.'] then cleanLoop rooted (dotdotStep rooted acc) rest
    else cleanLoop rooted (seg :: acc) rest

/-- Whether a path is rooted (starts with the separator). -/
def isRooted : List Char → Bool
  | c :: _ => c == '/'
  | [] => false

/-- `filepath.Clean` on unix, at character level. -/
def goCleanChars (s : List Char) : List Char :=
  if s = [] then ['.']
  else
    let rooted := isRooted s
    let body := joinSegs ((cleanLoop rooted [] (splitSegs s)).reverse)
    if rooted then '/' :: body
    else if body = [] then ['.'] else body

/-- `filepath.Clean` on strings. -/
def goClean (s : String) : String := ⟨goCleanChars s.data⟩

/-- `filepath.Base` on unix, at character level: empty input gives `.`,
trailing separators are stripped, all-separator input gives `/`, otherwise
the part after the last separator. -/
def goBaseChars (s : List Char) : List Char :=
  if s = [] then ['.']
  else
    let cs := s.reverse.dropWhile (fun c => c == '/')
    if cs = [] then ['/']
    else (cs.takeWhile (fun c => !(c == '/'))).reverse

/-- `filepath.Base` on strings, used by `UploadFile` to sanitize names. -/
def goBase (s : String) : String := ⟨goBaseChars s.data⟩

/-- `filepath.Join`: drop leading empty elements, join the remainder with
the separator and clean the result. -/
def goJoin (elems : List String) : String :=
  match elems.dropWhile (fun e => e == "") with
  | [] => ""
  | rest => ⟨goCleanChars (joinSegs (rest.map String.data))⟩

/-- Decimal digit characters, as produced by `strconv.Itoa`. -/
def digitChar : Nat → Char
  | 0 => '0'
  | 1 => '1'
  | 2 => '2'
  | 3 => '3'
  | 4 => '4'
  | 5 => '5'
  | 6 => '6'
  | 7 => '7'
  | 8 => '8'
  | _ => '9'

/-- Decimal digits of a number, most significant first, with explicit fuel
so the definition is structural (the fuel `n + 1` always suffices since the
argument shrinks by a factor of ten each step). -/
def natCharsFuel : Nat → Nat → List Char
  | 0, _ => []
  | fuel + 1, n =>
    if n < 10 then [digitChar n] else natCharsFuel fuel (n / 10) ++ [digitChar (n % 10)]

/-- `strconv.Itoa` for naturals. -/
def natChars (n : Nat) : List Char := natCharsFuel (n + 1) n

/-- The per-owner directory name `"user_" + strconv.Itoa(int(userID))`
built by `UploadFile`, at character level. -/
def userDirChars (uid : Nat) : List Char := "user_".data ++ natChars uid

/-- The per-owner directory name as a string. -/
def UserDir (uid : Nat) : String := ⟨userDirChars uid⟩

/-- The path resolution of `UploadFile`:
`filepath.Join(storagePathBase, "user_"+strconv.Itoa(int(userID)), filepath.Base(fileName))`. -/
def resolvePath (base : String) (uid : Nat) (name : String) : String :=
  goJoin [base, UserDir uid, goBase name]

/-- A path segment that `filepath.Clean` passes through untouched:
nonempty, not `.`, not `..`, and free of separators. -/
def NormalSeg (seg : List Char) : Prop :=
  seg ≠ [] ∧ seg ≠ ['.'] ∧ seg ≠ ['.', '.'] ∧ '/' ∉ seg

instance decidableNormalSeg (seg : List Char) : Decidable (NormalSeg seg) :=
  inferInstanceAs (Decidable (seg ≠ [] ∧ seg ≠ ['.'] ∧ seg ≠ ['.', '.'] ∧ '/' ∉ seg))

deriving instance DecidableEq for Except

/-- The `File` gorm model of pkg/files/file.go (identity and timestamps of
`gorm.Model` are owned by the database and omitted). -/
structure File where
  Name : String
  ContentType : String
  Path : String
  Description : String
  UserID : Nat
  IsEncrypted : Bool
deriving DecidableEq

/-- `utils.ValidateStruct` on a `File`: the `validate:"required"` tags sit
on `Name` and `Path`. -/
def validateFile (f : File) : Bool := !(f.Name == "") && !(f.Path == "")

/-- Read a file from the modelled filesystem (`os.ReadFile` / `os.Open`). -/
def fsGet (fs : List (String × List Byte)) (p : String) : Option (List Byte) :=
  (fs.find? (fun e => e.1 == p)).map (fun e => e.2)

/-- Create or overwrite a file (`os.Create` plus writes). -/
def fsSet (fs : List (String × List Byte)) (p : String) (b : List Byte) :
    List (String × List Byte) :=
  (p, b) :: fs.filter (fun e => !(e.1 == p))

/-- Delete a file (`os.Remove`). -/
def fsErase (fs : List (String × List Byte)) (p : String) : List (String × List Byte) :=
  fs.filter (fun e => !(e.1 == p))

/-- The state `UploadFile` acts on: the filesystem and the metadata rows. -/
structure Sys where
  fs : List (String × List Byte)
  db : List File
deriving DecidableEq

/-- Observable side effects of `UploadFile`, in program order. -/
inductive Event where
  | create (p : String)
  | write (p : String) (bytes : List Byte)
  | remove (p : String)
  | encrypt (p : String)
  | dbInsert (f : File)
deriving DecidableEq

/-- The error exits of `UploadFile`, one per `return nil, err` site. -/
inductive UploadError where
  | dirCreateFailed
  | fileCreateFailed
  | writeFailed
  | closeFailed
  | invalidKeyLength
  | encryptionFailed
  | validationFailed
  | metadataFailed
deriving DecidableEq

/-- One `UploadFile` call: its arguments, the bytes its reader delivers,
and the injected outcomes of the fallible external steps (directory
creation, file creation, the copy from the reader, the close, the
encryption I/O, and the database insert).  `nonce` is the randomness the
inner `EncryptFile` would draw. -/
structure UploadInput where
  fileName : String
  contentType : String
  description : String
  userID : Nat
  storagePathBase : String
  encryptionKey : List Byte
  content : List Byte
  streamAborts : Bool
  mkdirFails : Bool
  createFails : Bool
  closeFails : Bool
  encryptFails : Bool
  dbFails : Bool
  nonce : List Byte
deriving DecidableEq

/-- The final path `UploadFile` computes for a call. -/
def uploadPath (inp : UploadInput) : String :=
  resolvePath inp.storagePathBase inp.userID inp.fileName

/-- The metadata record `UploadFile` builds. -/
def uploadRecord (inp : UploadInput) (isEncrypted : Bool) : File :=
  ⟨goBase inp.fileName, inp.contentType, uploadPath inp, inp.description,
   inp.userID, isEncrypted⟩

/-- `UploadFile` (the upload routine of pkg/files): sanitize the name, join
the path, create the destination at the final path, copy the content into
it, on a non-empty key check its length and encrypt in place, then
validate and persist the metadata record.  Every `os.Remove` / early
return of the source is reproduced; the returned trace lists the
filesystem and database effects in program order. -/
def UploadFile (g : GCM) (inp : UploadInput) (s : Sys) :
    Except UploadError File × Sys × List Event :=
  let filePath := uploadPath inp
  if inp.mkdirFails then (.error .dirCreateFailed, s, [])
  else if inp.createFails then (.error .fileCreateFailed, s, [])
  else
    let s2 : Sys := ⟨fsSet (fsSet s.fs filePath []) filePath inp.content, s.db⟩
    let tr2 : List Event := [.create filePath, .write filePath inp.content]
    if inp.streamAborts then
      (.error .writeFailed, ⟨fsErase s2.fs filePath, s2.db⟩, tr2 ++ [.remove filePath])
    else if inp.closeFails then
      (.error .closeFailed, ⟨fsErase s2.fs filePath, s2.db⟩, tr2 ++ [.remove filePath])
    else if inp.encryptionKey.length ≠ 0 then
      if validKeyLength inp.encryptionKey = false then
        (.error .invalidKeyLength, ⟨fsErase s2.fs filePath, s2.db⟩, tr2 ++ [.remove filePath])
      else if inp.encryptFails then
        (.error .encryptionFailed, ⟨fsErase s2.fs filePath, s2.db⟩, tr2 ++ [.remove filePath])
      else
        let s3 : Sys := ⟨fsSet s2.fs filePath (EncryptFileBytes g inp.nonce inp.content), s2.db⟩
        let record := uploadRecord inp true
        if validateFile record = false then
          (.error .validationFailed, s3, tr2 ++ [.encrypt filePath])
        else if inp.dbFails then
          (.error .metadataFailed, s3, tr2 ++ [.encrypt filePath])
        else
          (.ok record, ⟨s3.fs, s3.db ++ [record]⟩, tr2 ++ [.encrypt filePath, .dbInsert record])
    else
      let record := uploadRecord inp false
      if validateFile record = false then (.error .validationFailed, s2, tr2)
      else if inp.dbFails then (.error .metadataFailed, s2, tr2)
      else (.ok record, ⟨s2.fs, s2.db ++ [record]⟩, tr2 ++ [.dbInsert record])

/-- The error exits of `DownloadFile` (download.go). -/
inductive DownloadError where
  | notFound
  | unauthorized
  | keyRequired
  | invalidKeyLength
  | decryptFailed
  | openFailed
deriving DecidableEq

/-- `db.First(&fileMetadata, fileID)`: the metadata lookup by id. -/
def dbFirst (db : List (Nat × File)) (id : Nat) : Option File :=
  (db.find? (fun e => e.1 == id)).map (fun e => e.2)

/-- `DownloadFile` (download.go): load the record (`ErrFileNotFound` if
absent), check ownership (`ErrUnauthorized`), and for encrypted records
require a key (`ErrDecryptionKeyRequired`), check its length
(`ErrInvalidKeyLength`) and decrypt via `DecryptFile`; unencrypted records
are opened and returned directly, without any key check. -/
def DownloadFile (g : GCM) (db : List (Nat × File)) (fs : List (String × List Byte))
    (fileID userID : Nat) (key : List Byte) : Except DownloadError (List Byte × File) :=
  match dbFirst db fileID with
  | none => .error .notFound
  | some f =>
    if f.UserID ≠ userID then .error .unauthorized
    else if f.IsEncrypted then
      if key.length = 0 then .error .keyRequired
      else if validKeyLength key = false then .error .invalidKeyLength
      else
        match fsGet fs f.Path with
        | none => .error .openFailed
        | some bytes =>
          match DecryptData g key bytes with
          | .ok p => .ok (p, f)
          | .error _ => .error .decryptFailed
    else
      match fsGet fs f.Path with
      | none => .error .openFailed
      | some bytes => .ok (bytes, f)

/-- The error exit of `UpdateFile` (file.go). -/
inductive UpdateError where
  | unauthorized
deriving DecidableEq

/-- `File.UpdateFile` (file.go): owner check, then apply each non-empty
field of the patch; `UserID` and `IsEncrypted` are never touched. -/
def UpdateFile (f : File) (userID : Nat) (patch : File) : Except UpdateError File :=
  if f.UserID ≠ userID then .error .unauthorized
  else
    .ok ⟨if patch.Name ≠ "" then patch.Name else f.Name,
         if patch.ContentType ≠ "" then patch.ContentType else f.ContentType,
         if patch.Path ≠ "" then patch.Path else f.Path,
         if patch.Description ≠ "" then patch.Description else f.Description,
         f.UserID, f.IsEncrypted⟩

/-- Claim C4 as stated: on an invalid non-empty key, Store fails with the
invalid-key-length error and no content bytes are ever written to storage. -/
def ClaimC4 (g : GCM) : Prop :=
  ∀ inp s, inp.encryptionKey ≠ [] → validKeyLength inp.encryptionKey = false →
    (UploadFile g inp s).1 = .error .invalidKeyLength ∧
    ∀ p bytes, Event.write p bytes ∉ (UploadFile g inp s).2.2

/-- Claim C5 as stated: whenever metadata persistence fails, the
just-written bytes are deleted before the error is surfaced. -/
def ClaimC5 (g : GCM) : Prop :=
  ∀ inp s, (UploadFile g inp s).1 = .error .metadataFailed →
    fsGet (UploadFile g inp s).2.1.fs (uploadPath inp) = none

/-- Claim C6 as stated: on a stream abort no file exists at the final path,
no record was created, and a pre-existing file at the final path is left
unmodified. -/
def ClaimC6 (g : GCM) : Prop :=
  ∀ inp s, inp.streamAborts = true →
    fsGet (UploadFile g inp s).2.1.fs (uploadPath inp) = none ∧
    (UploadFile g inp s).2.1.db = s.db ∧
    ∀ old, fsGet s.fs (uploadPath inp) = some old →
      fsGet (UploadFile g inp s).2.1.fs (uploadPath inp) = some old

/-- Claim C7, fourth clause as stated: once the record exists, the
requester is the owner, and the encrypted-without-key case does not apply,
any supplied key of invalid length makes Retrieve fail with the
invalid-key-length error — with no restriction to encrypted records. -/
def ClaimC7 (g : GCM) : Prop :=
  ∀ db fs id uid key f, dbFirst db id = some f → f.UserID = uid →
    ¬ (f.IsEncrypted = true ∧ key = []) → key ≠ [] → validKeyLength key = false →
    DownloadFile g db fs id uid key = .error .invalidKeyLength

/-- Concrete upload call: invalid 5-byte key, everything else succeeding. -/
def inpC4 : UploadInput :=
  ⟨"a.txt", "text/plain", "d", 7, "uploads", [1, 2, 3, 4, 5], [10, 20, 30],
   false, false, false, false, false, false, []⟩

/-- Concrete upload call: no key, database insert failing. -/
def inpC5 : UploadInput :=
  ⟨"a.txt", "text/plain", "d", 7, "uploads", [], [1, 2, 3],
   false, false, false, false, false, true, []⟩

/-- Concrete upload call: no key, the content stream aborting mid-copy. -/
def inpC6 : UploadInput :=
  ⟨"a.txt", "text/plain", "d", 7, "uploads", [], [1, 2],
   true, false, false, false, false, false, []⟩

/-- The empty starting state. -/
def sys0 : Sys := ⟨[], []⟩

/-- A starting state with a pre-existing file at the final path of the
concrete upload calls. -/
def sysC6 : Sys := ⟨[("uploads/user_7/a.txt", [9, 9])], []⟩

/-- An unencrypted file record owned by user 7. -/
def fRecC7 : File := ⟨"a", "", "p", "", 7, false⟩

/-- A metadata table holding that record under id 1. -/
def dbC7 : List (Nat × File) := [(1, fRecC7)]

/-- A filesystem holding that record's bytes. -/
def fsC7 : List (String × List Byte) := [("p", [104])]

/-- A record owned by user 7, encrypted. -/
def fRecC9 : File := ⟨"old", "t", "p", "d", 7, true⟩

/-- A patch with some empty fields and divergent owner and encryption
values, to exercise the frame condition. -/
def patchC9 : File := ⟨"new", "", "", "nd", 0, false⟩

/-- Big-endian 4-byte encoding, for the framing layout named by the spec. -/
def be32 (n : Nat) : List Byte := [n / 2 ^ 24 % 256, n / 2 ^ 16 % 256, n / 2 ^ 8 % 256, n % 256]

/-- SpecChunkSequence follows the spec's on-disk layout words, for
comparison with what the code writes: "a sequence of length-prefixed chunks
each shaped as [4-byte big-endian chunk length][12-byte nonce][ciphertext]
[16-byte tag]". -/
inductive SpecChunkSequence : List Byte → Prop where
  | nil : SpecChunkSequence []
  | chunk (nonce ct tag rest : List Byte) (hn : nonce.length = gcmNonceSize)
      (ht : tag.length = gcmTagSize) (hrest : SpecChunkSequence rest) :
      SpecChunkSequence (be32 (nonce.length + ct.length + tag.length) ++ nonce ++ ct ++ tag ++ rest)

end GoShare

namespace GoShare

/-! Helper lemmas about chunking and the cipher model. -/

theorem chunkify_nil (k : Nat) : chunkify k [] = [] := by
  cases k <;> simp [chunkify]

theorem chunkify_cons (k : Nat) (a : Byte) (l : List Byte) :
    chunkify (k + 1) (a :: l) =
      (a :: l).take (k + 1) :: chunkify (k + 1) ((a :: l).drop (k + 1)) := by
  simp [chunkify]

theorem chunkify_flatten (k : Nat) (l : List Byte) : (chunkify (k + 1) l).flatten = l := by
  generalize hn : l.length = n
  induction n using Nat.strong_induction_on generalizing l with
  | _ n ih =>
    cases l with
    | nil => simp [chunkify_nil]
    | cons a t =>
      rw [chunkify_cons]
      simp only [List.flatten_cons]
      rw [ih ((a :: t).drop (k + 1)).length
        (by simp only [List.length_drop, List.length_cons] at hn ⊢; omega) _ rfl]
      exact List.take_append_drop (k + 1) (a :: t)

theorem two_le_chunkify_length (k : Nat) (l : List Byte) (h : k + 1 < l.length) :
    2 ≤ (chunkify (k + 1) l).length := by
  cases l with
  | nil => simp at h
  | cons a t =>
    rw [chunkify_cons]
    cases hdrop : (a :: t).drop (k + 1) with
    | nil =>
      have hlen := congrArg List.length hdrop
      simp only [List.length_drop, List.length_cons, List.length_nil] at hlen
      simp only [List.length_cons] at h
      omega
    | cons b u =>
      rw [chunkify_cons]
      simp only [List.length_cons]
      omega

theorem length_flatten_map_seal (g : GCM) (hg : LawfulGCM g) (nonce : List Byte)
    (L : List (List Byte)) :
    ((L.map (g.Seal nonce)).flatten).length = L.flatten.length + gcmTagSize * L.length := by
  induction L with
  | nil => simp
  | cons x L ih =>
    simp only [List.map_cons, List.flatten_cons, List.length_append, ih, hg.seal_length,
      List.length_cons]
    ring

theorem chunkSize_eq : chunkSize = 65535 + 1 := by norm_num [chunkSize]

theorem toyGCM_lawful : LawfulGCM toyGCM := by
  refine ⟨?_, ?_, ?_⟩
  · intro n p
    simp [toyGCM, toySeal]
  · intro n p
    show toyOpen n (toySeal n p) = some p
    unfold toyOpen toySeal
    have htake : (p ++ List.replicate gcmTagSize 0).take
        ((p ++ List.replicate gcmTagSize 0).length - gcmTagSize) = p := by
      have h1 : (p ++ List.replicate gcmTagSize 0).length - gcmTagSize = p.length := by
        simp
      rw [h1, List.take_left]
    have hcond : gcmTagSize ≤ (p ++ List.replicate gcmTagSize 0).length := by
      simp only [List.length_append, List.length_replicate]
      omega
    simp [htake, hcond]
  · intro n c p h
    have h2 : toyOpen n c = some p := h
    unfold toyOpen at h2
    split_ifs at h2 with hc
    · have hp : c.take (c.length - gcmTagSize) = p := by injection h2
      show c = toySeal n p
      unfold toySeal
      rw [← hp]
      exact hc.2

theorem specChunkSequence_length {b : List Byte} (h : SpecChunkSequence b) :
    b = [] ∨ 32 ≤ b.length := by
  induction h with
  | nil => exact Or.inl rfl
  | chunk nonce ct tag rest hn ht hrest ih =>
    right
    simp only [be32, List.length_append, List.length_cons, List.length_nil, hn, ht,
      gcmNonceSize, gcmTagSize]
    omega

/-! Claim theorems for the encryption layer. -/

/-- Claim C1 (code_bug evidence): the file-level round trip fails.  For any
lawful cipher instance, a valid key and a 12-byte nonce, if the content is
empty or longer than one chunk (in particular a 5 MB file), then
`DecryptFile` applied to the bytes `EncryptFile` wrote does not return the
original content: the empty file carries no tag at all, and with two or
more chunks the concatenation of sealed chunks can never authenticate as
the single sealed message `DecryptData` expects. -/
theorem DecryptFile_EncryptFile_roundtrip_fails
    (g : GCM) (hg : LawfulGCM g) (key nonce content : List Byte)
    (hn : nonce.length = gcmNonceSize)
    (hbig : content = [] ∨ chunkSize < content.length) :
    DecryptFile g key (EncryptFileBytes g nonce content) ≠ .ok content := by
  intro hok
  unfold DecryptFile DecryptData EncryptFileBytes at hok
  cases hvk : validKeyLength key with
  | false => rw [if_pos hvk] at hok; exact absurd hok (by simp)
  | true =>
    rw [if_neg (by simp [hvk])] at hok
    set rest := ((chunkify chunkSize content).map (g.Seal nonce)).flatten with hrest
    rw [if_neg (by simp only [List.length_append, Nat.not_lt, hn]; omega)] at hok
    rw [← hn, List.take_left, List.drop_left] at hok
    cases ho : g.Open nonce rest with
    | none => rw [ho] at hok; exact absurd hok (by simp)
    | some p =>
      rw [ho] at hok
      have hp : p = content := by injection hok
      subst hp
      have hseal : rest = g.Seal nonce p := hg.open_eq_seal nonce rest p ho
      have h1 : rest.length = p.length + gcmTagSize := by
        rw [hseal, hg.seal_length]
      have h2 : rest.length =
          p.length + gcmTagSize * (chunkify chunkSize p).length := by
        rw [hrest, length_flatten_map_seal g hg]
        rw [chunkSize_eq, chunkify_flatten]
      rcases hbig with hemp | hlong
      · subst hemp
        rw [chunkify_nil] at h2
        simp only [List.length_nil, List.length_nil, gcmTagSize] at h1 h2
        omega
      · have h3 : 2 ≤ (chunkify chunkSize p).length := by
          rw [chunkSize_eq]
          exact two_le_chunkify_length 65535 p (by rw [← chunkSize_eq]; exact hlong)
        have hcontra := h1.symm.trans h2
        simp only [gcmTagSize] at hcontra
        omega

/-- Witness for C1: the concrete failure on the empty file with a 32-byte
key under the toy cipher. -/
theorem DecryptFile_EncryptFile_roundtrip_fails_witness :
    DecryptFile toyGCM (List.replicate 32 0) (EncryptFileBytes toyGCM (List.replicate 12 0) [])
      ≠ .ok [] :=
  DecryptFile_EncryptFile_roundtrip_fails toyGCM toyGCM_lawful (List.replicate 32 0)
    (List.replicate 12 0) [] (by simp [gcmNonceSize]) (Or.inl rfl)

/-- Claim C2 (code_bug evidence): within one encryption session,
`EncryptFile` draws its nonce once, before the chunk loop, and every
`gcm.Seal` call of the session receives that same nonce.  For any content
longer than one chunk there are at least two sealed chunks and all of them
are sealed with one identical nonce — the nonce is reused, not fresh per
chunk. -/
theorem EncryptFile_nonce_reused_across_chunks (nonce content : List Byte)
    (h : chunkSize < content.length) :
    2 ≤ (EncryptFileSealCalls nonce content).length ∧
      ∀ call ∈ EncryptFileSealCalls nonce content, call.1 = nonce := by
  constructor
  · have h2 : 2 ≤ (chunkify chunkSize content).length := by
      rw [chunkSize_eq]
      exact two_le_chunkify_length 65535 content (by rw [← chunkSize_eq]; exact h)
    simpa [EncryptFileSealCalls] using h2
  · intro call hc
    simp only [EncryptFileSealCalls, List.mem_map] at hc
    obtain ⟨c, _, rfl⟩ := hc
    rfl

/-- Witness for C2: a 65537-byte content is split into two chunks, both
sealed with the same 12-byte nonce. -/
theorem EncryptFile_nonce_reused_across_chunks_witness :
    2 ≤ (EncryptFileSealCalls (List.replicate 12 0) (List.replicate 65537 1)).length ∧
      ∀ call ∈ EncryptFileSealCalls (List.replicate 12 0) (List.replicate 65537 1),
        call.1 = List.replicate 12 0 :=
  EncryptFile_nonce_reused_across_chunks (List.replicate 12 0) (List.replicate 65537 1)
    (by norm_num [chunkSize, List.length_replicate])

/-- Claim C3 (code_bug evidence): the bytes `EncryptFile` writes are not a
sequence of length-prefixed chunks of the shape the spec requires.  For a
one-byte plaintext the file is 12 + 1 + 16 = 29 bytes (session nonce, then
ciphertext and tag with no per-chunk length prefix and no per-chunk nonce),
while every nonempty sequence of [4-byte length][12-byte nonce][ciphertext]
[16-byte tag] chunks is at least 32 bytes long. -/
theorem EncryptFile_output_not_length_prefixed
    (g : GCM) (hg : LawfulGCM g) (nonce : List Byte) (hn : nonce.length = gcmNonceSize) :
    ¬ SpecChunkSequence (EncryptFileBytes g nonce [0]) := by
  intro h
  have h1 : chunkify chunkSize [0] = [[0]] := by
    rw [chunkSize_eq, chunkify_cons]
    simp [chunkify_nil]
  have hlen : (EncryptFileBytes g nonce [0]).length = 29 := by
    simp [EncryptFileBytes, h1, hg.seal_length, hn, gcmNonceSize, gcmTagSize]
  rcases specChunkSequence_length h with h0 | h32
  · rw [h0] at hlen
    simp at hlen
  · omega

/-- Witness for C3: the concrete 29-byte output for plaintext `[0]` under
the toy cipher is not a length-prefixed chunk sequence. -/
theorem EncryptFile_output_not_length_prefixed_witness :
    ¬ SpecChunkSequence (EncryptFileBytes toyGCM (List.replicate 12 0) [0]) :=
  EncryptFile_output_not_length_prefixed toyGCM toyGCM_lawful (List.replicate 12 0)
    (by simp [gcmNonceSize])

/-! Helper lemmas about the path model. -/

theorem splitSegsAux_ne_nil (xs : List Char) : ∀ cur, splitSegsAux cur xs ≠ [] := by
  induction xs with
  | nil => intro cur; simp [splitSegsAux]
  | cons c cs ih =>
    intro cur
    unfold splitSegsAux
    by_cases hc : (c == '/') = true
    · rw [if_pos hc]; simp
    · rw [if_neg hc]; exact ih (c :: cur)

theorem splitSegs_ne_nil (s : List Char) : splitSegs s ≠ [] := splitSegsAux_ne_nil s []

theorem splitSegs_nil : splitSegs [] = [[]] := rfl

theorem splitSegs_sep_cons (t : List Char) : splitSegs ('/' :: t) = [] :: splitSegs t := rfl

theorem splitSegsAux_append_sep (xs : List Char) :
    ∀ cur ys, splitSegsAux cur (xs ++ '/' :: ys) = splitSegsAux cur xs ++ splitSegs ys := by
  induction xs with
  | nil =>
    intro cur ys
    show splitSegsAux cur ('/' :: ys) = splitSegsAux cur [] ++ splitSegs ys
    unfold splitSegsAux
    simp [splitSegs]
  | cons c cs ih =>
    intro cur ys
    rw [List.cons_append]
    unfold splitSegsAux
    by_cases hc : (c == '/') = true
    · rw [if_pos hc, if_pos hc, ih]
      simp
    · rw [if_neg hc, if_neg hc, ih]

theorem splitSegs_append_sep (xs ys : List Char) :
    splitSegs (xs ++ '/' :: ys) = splitSegs xs ++ splitSegs ys :=
  splitSegsAux_append_sep xs [] ys

theorem splitSegsAux_no_slash (xs : List Char) (h : '/' ∉ xs) :
    ∀ cur, splitSegsAux cur xs = [cur.reverse ++ xs] := by
  induction xs with
  | nil => intro cur; simp [splitSegsAux]
  | cons c cs ih =>
    intro cur
    have hc : (c == '/') = false := by
      rw [beq_eq_false_iff_ne]
      intro he
      exact h (he ▸ List.mem_cons_self c cs)
    unfold splitSegsAux
    rw [if_neg (by simp [hc])]
    rw [ih (fun hm => h (List.mem_cons_of_mem c hm)) (c :: cur)]
    simp

theorem splitSegs_no_slash (xs : List Char) (h : '/' ∉ xs) : splitSegs xs = [xs] := by
  rw [splitSegs, splitSegsAux_no_slash xs h []]
  rfl

theorem joinSegs_cons (x : List Char) (L : List (List Char)) (h : L ≠ []) :
    joinSegs (x :: L) = x ++ '/' :: joinSegs L := by
  cases L with
  | nil => exact absurd rfl h
  | cons y ys => rfl

theorem joinSegs_splitSegsAux (xs : List Char) :
    ∀ cur, joinSegs (splitSegsAux cur xs) = cur.reverse ++ xs := by
  induction xs with
  | nil => intro cur; simp [splitSegsAux, joinSegs]
  | cons c cs ih =>
    intro cur
    unfold splitSegsAux
    by_cases hc : (c == '/') = true
    · rw [if_pos hc]
      rw [joinSegs_cons _ _ (splitSegsAux_ne_nil cs [])]
      rw [ih []]
      have : c = '/' := by exact eq_of_beq hc
      simp [this]
    · rw [if_neg hc]
      rw [ih (c :: cur)]
      simp

theorem joinSegs_splitSegs (xs : List Char) : joinSegs (splitSegs xs) = xs := by
  rw [splitSegs, joinSegs_splitSegsAux xs []]
  rfl

theorem joinSegs_append_last (L : List (List Char)) (u : List Char) (h : L ≠ []) :
    joinSegs (L ++ [u]) = joinSegs L ++ '/' :: u := by
  induction L with
  | nil => exact absurd rfl h
  | cons x L ih =>
    cases L with
    | nil => rfl
    | cons y ys =>
      rw [List.cons_append]
      rw [joinSegs_cons x ((y :: ys) ++ [u]) (by simp)]
      rw [joinSegs_cons x (y :: ys) (by simp)]
      rw [ih (by simp)]
      simp

theorem cleanLoop_nil (r : Bool) (acc : List (List Char)) : cleanLoop r acc [] = acc := rfl

theorem cleanLoop_skip (r : Bool) (acc : List (List Char)) (seg : List Char)
    (rest : List (List Char)) (h : seg = [] ∨ seg = ['.']) :
    cleanLoop r acc (seg :: rest) = cleanLoop r acc rest := by
  conv_lhs => unfold cleanLoop
  rw [if_pos h]

theorem cleanLoop_dotdot (r : Bool) (acc rest) :
    cleanLoop r acc (['.', '.'] :: rest) = cleanLoop r (dotdotStep r acc) rest := by
  conv_lhs => unfold cleanLoop
  rw [if_neg (by simp), if_pos rfl]

theorem cleanLoop_push (r : Bool) (acc : List (List Char)) (seg : List Char)
    (rest : List (List Char)) (h1 : seg ≠ []) (h2 : seg ≠ ['.']) (h3 : seg ≠ ['.', '.']) :
    cleanLoop r acc (seg :: rest) = cleanLoop r (seg :: acc) rest := by
  conv_lhs => unfold cleanLoop
  rw [if_neg (by simp [h1, h2]), if_neg h3]

theorem cleanLoop_append (r : Bool) (xs : List (List Char)) :
    ∀ acc ys, cleanLoop r acc (xs ++ ys) = cleanLoop r (cleanLoop r acc xs) ys := by
  induction xs with
  | nil => intro acc ys; rfl
  | cons seg xs ih =>
    intro acc ys
    rw [List.cons_append]
    by_cases h1 : seg = [] ∨ seg = ['.']
    · rw [cleanLoop_skip r acc seg _ h1, cleanLoop_skip r acc seg _ h1, ih]
    · by_cases h2 : seg = ['.', '.']
      · subst h2
        rw [cleanLoop_dotdot, cleanLoop_dotdot, ih]
      · have hne : seg ≠ [] := fun he => h1 (Or.inl he)
        have hnd : seg ≠ ['.'] := fun he => h1 (Or.inr he)
        rw [cleanLoop_push r acc seg _ hne hnd h2, cleanLoop_push r acc seg _ hne hnd h2, ih]

theorem cleanLoop_normals (r : Bool) (xs : List (List Char))
    (h : ∀ s ∈ xs, NormalSeg s) : ∀ acc, cleanLoop r acc xs = xs.reverse ++ acc := by
  induction xs with
  | nil => intro acc; simp [cleanLoop_nil]
  | cons seg xs ih =>
    intro acc
    obtain ⟨h1, h2, h3, _⟩ := h seg (List.mem_cons_self seg xs)
    rw [cleanLoop_push r acc seg xs h1 h2 h3]
    rw [ih (fun s hs => h s (List.mem_cons_of_mem seg hs)) (seg :: acc)]
    simp

theorem dropWhile_head_false {α : Type} (p : α → Bool) (l : List α) (a : α) (t : List α)
    (h : l.dropWhile p = a :: t) : p a = false := by
  induction l with
  | nil => simp [List.dropWhile] at h
  | cons x xs ih =>
    rw [List.dropWhile_cons] at h
    by_cases hp : p x = true
    · rw [if_pos hp] at h
      exact ih h
    · rw [if_neg hp] at h
      have hx : x = a := by injection h with h1 _
      rw [← hx]
      exact Bool.eq_false_iff.mpr hp

theorem mem_of_takeWhile {α : Type} (p : α → Bool) (l : List α) (c : α)
    (h : c ∈ l.takeWhile p) : p c = true := by
  induction l with
  | nil => simp [List.takeWhile] at h
  | cons x xs ih =>
    rw [List.takeWhile_cons] at h
    by_cases hp : p x = true
    · rw [if_pos hp] at h
      rcases List.mem_cons.mp h with he | hm
      · rw [he]; exact hp
      · exact ih hm
    · rw [if_neg hp] at h
      simp at h

theorem goBaseChars_cases (s : List Char) :
    goBaseChars s = ['/'] ∨ (goBaseChars s ≠ [] ∧ '/' ∉ goBaseChars s) := by
  unfold goBaseChars
  by_cases h0 : s = []
  · rw [if_pos h0]
    right
    constructor
    · simp
    · simp
  · rw [if_neg h0]
    by_cases hcs : s.reverse.dropWhile (fun c => c == '/') = []
    · simp only [hcs]
      left
      rfl
    · simp only [if_neg hcs]
      right
      cases hd : s.reverse.dropWhile (fun c => c == '/') with
      | nil => exact absurd hd hcs
      | cons a t =>
        have ha : (a == '/') = false := dropWhile_head_false _ _ a t hd
        constructor
        · rw [List.takeWhile_cons]
          rw [if_pos (by simp [ha])]
          simp
        · intro hm
          rw [List.mem_reverse] at hm
          have := mem_of_takeWhile _ _ _ hm
          simp at this

theorem digitChar_ne_slash (d : Nat) : digitChar d ≠ '/' := by
  unfold digitChar
  split <;> decide

theorem natCharsFuel_no_slash (fuel : Nat) : ∀ n c, c ∈ natCharsFuel fuel n → c ≠ '/' := by
  induction fuel with
  | zero => intro n c h; simp [natCharsFuel] at h
  | succ fuel ih =>
    intro n c h
    unfold natCharsFuel at h
    by_cases hn : n < 10
    · rw [if_pos hn] at h
      rw [List.mem_singleton.mp h]
      exact digitChar_ne_slash n
    · rw [if_neg hn] at h
      rcases List.mem_append.mp h with hm | hm
      · exact ih (n / 10) c hm
      · rw [List.mem_singleton.mp hm]
        exact digitChar_ne_slash (n % 10)

theorem userDirChars_eq (uid : Nat) :
    userDirChars uid = 'u' :: 's' :: 'e' :: 'r' :: '_' :: natChars uid := rfl

theorem userDir_normal (uid : Nat) : NormalSeg (userDirChars uid) := by
  rw [userDirChars_eq]
  refine ⟨by simp, by simp, by simp, ?_⟩
  intro hm
  rcases List.mem_cons.mp hm with he | hm
  · exact absurd he (by decide)
  · rcases List.mem_cons.mp hm with he | hm
    · exact absurd he (by decide)
    · rcases List.mem_cons.mp hm with he | hm
      · exact absurd he (by decide)
      · rcases List.mem_cons.mp hm with he | hm
        · exact absurd he (by decide)
        · rcases List.mem_cons.mp hm with he | hm
          · exact absurd he (by decide)
          · exact natCharsFuel_no_slash (uid + 1) uid '/' hm rfl

theorem goCleanChars_unrooted (s : List Char) (hne : s ≠ []) (hroot : isRooted s = false) :
    goCleanChars s =
      if joinSegs ((cleanLoop false [] (splitSegs s)).reverse) = [] then ['.']
      else joinSegs ((cleanLoop false [] (splitSegs s)).reverse) := by
  unfold goCleanChars
  rw [if_neg hne, hroot]
  simp

/-! Claim theorems for path resolution. -/

/-- Claim C8 counterexample: the per-owner directory of the code is
`user_<id>`, not `owner_<id>`.  `UploadFile` resolves owner 42 with raw
name `../../secret` under root `uploads` to `uploads/user_42/secret`, not
to an `owner_42/secret` path. -/
theorem resolvePath_counterexample :
    resolvePath "uploads" 42 "../../secret" = "uploads/user_42/secret" ∧
      resolvePath "uploads" 42 "../../secret" ≠ "uploads/owner_42/secret" ∧
      resolvePath "uploads" 42 "../../secret" ≠ "owner_42/secret" := by
  refine ⟨by decide, by decide, by decide⟩

/-- Claim C8 (amended): `UploadFile` keeps only the final path segment of
the raw name and joins it under `user_<ownerID>` below the storage root;
for every owner id and raw name, if the root is a clean relative path (all
its segments ordinary), the resolved path is the root itself, the per-owner
directory, or a path strictly inside the per-owner directory — it never
escapes the root.  The concrete case of the spec resolves to
`uploads/user_42/secret`. -/
theorem resolvePath_stays_in_root :
    (∀ (base : String) (uid : Nat) (name : String),
        (∀ seg ∈ splitSegs base.data, NormalSeg seg) →
        resolvePath base uid name = base ∨
        resolvePath base uid name = base ++ "/" ++ UserDir uid ∨
        ∃ t : String, resolvePath base uid name = base ++ "/" ++ UserDir uid ++ "/" ++ t) ∧
    resolvePath "uploads" 42 "../../secret" = "uploads/user_42/secret" := by
  constructor
  · intro base uid name hbase
    have hU : NormalSeg (userDirChars uid) := userDir_normal uid
    -- the base is nonempty and does not start with a separator
    have hBne : base.data ≠ [] := by
      intro h0
      have hmem : ([] : List Char) ∈ splitSegs base.data := by
        rw [h0, splitSegs_nil]
        exact List.mem_singleton.mpr rfl
      exact (hbase [] hmem).1 rfl
    obtain ⟨b0, B', hB⟩ : ∃ b0 B', base.data = b0 :: B' := by
      cases hBd : base.data with
      | nil => exact absurd hBd hBne
      | cons x xs => exact ⟨x, xs, rfl⟩
    have hb0 : (b0 == '/') = false := by
      cases hb : (b0 == '/') with
      | false => rfl
      | true =>
        have hb' : b0 = '/' := eq_of_beq hb
        have hmem : ([] : List Char) ∈ splitSegs base.data := by
          rw [hB, hb', splitSegs_sep_cons]
          exact List.mem_cons_self _ _
        exact ((hbase [] hmem).1 rfl).elim
    -- unfold the resolution to a single clean of the joined characters
    have hbne2 : (base == "") = false := by
      rw [beq_eq_false_iff_ne]
      intro he
      exact hBne (by rw [he])
    have hrp : resolvePath base uid name =
        ⟨goCleanChars (base.data ++ '/' ::
          (userDirChars uid ++ '/' :: goBaseChars name.data))⟩ := by
      unfold resolvePath goJoin
      rw [List.dropWhile_cons, hbne2]
      simp only [Bool.false_eq_true, if_false]
      rfl
    -- the joined character list is nonempty and unrooted
    have hne : base.data ++ '/' :: (userDirChars uid ++ '/' :: goBaseChars name.data) ≠ [] := by
      rw [hB]
      simp
    have hroot : isRooted
        (base.data ++ '/' :: (userDirChars uid ++ '/' :: goBaseChars name.data)) = false := by
      rw [hB, List.cons_append]
      show (b0 == '/') = false
      exact hb0
    -- its segments
    have hsplit : splitSegs
        (base.data ++ '/' :: (userDirChars uid ++ '/' :: goBaseChars name.data)) =
        splitSegs base.data ++ ([userDirChars uid] ++ splitSegs (goBaseChars name.data)) := by
      rw [splitSegs_append_sep, splitSegs_append_sep]
      rw [splitSegs_no_slash (userDirChars uid) hU.2.2.2]
    -- the clean loop up to the owner directory
    have hclean2 : cleanLoop false []
        (splitSegs base.data ++ [userDirChars uid]) =
        userDirChars uid :: (splitSegs base.data).reverse := by
      rw [cleanLoop_append]
      rw [cleanLoop_normals false (splitSegs base.data) hbase []]
      rw [cleanLoop_push false _ _ _ hU.1 hU.2.1 hU.2.2.1, cleanLoop_nil]
      simp
    have hbody2 : joinSegs ((userDirChars uid :: (splitSegs base.data).reverse).reverse) =
        base.data ++ '/' :: userDirChars uid := by
      rw [List.reverse_cons, List.reverse_reverse]
      rw [joinSegs_append_last (splitSegs base.data) (userDirChars uid) (splitSegs_ne_nil _)]
      rw [joinSegs_splitSegs]
    have hmid : (base ++ "/" ++ UserDir uid).data = base.data ++ '/' :: userDirChars uid := by
      simp only [String.data_append, List.append_assoc]
      rfl
    -- case analysis on the sanitized name segment
    rcases goBaseChars_cases name.data with hG | ⟨hGne, hGnos⟩
    · -- the sanitized name is the bare separator: it joins as empty segments
      right; left
      rw [hrp, hG]
      rw [goCleanChars_unrooted _ (by rw [hG] at hne; exact hne) (by rw [hG] at hroot; exact hroot)]
      have hsegs : splitSegs ((['/'] : List Char)) = [[], []] := rfl
      have : splitSegs (base.data ++ '/' :: (userDirChars uid ++ '/' :: ['/'])) =
          (splitSegs base.data ++ [userDirChars uid]) ++ [[], []] := by
        rw [hG] at hsplit
        rw [hsplit, hsegs]
        simp
      rw [this, cleanLoop_append, hclean2]
      rw [cleanLoop_skip false _ _ _ (Or.inl rfl), cleanLoop_skip false _ _ _ (Or.inl rfl),
        cleanLoop_nil]
      rw [hbody2]
      rw [if_neg (by rw [hB]; simp)]
      calc (⟨base.data ++ '/' :: userDirChars uid⟩ : String)
          = ⟨(base ++ "/" ++ UserDir uid).data⟩ := by rw [hmid]
        _ = base ++ "/" ++ UserDir uid := rfl
    · by_cases hdot : goBaseChars name.data = ['.']
      · -- the sanitized name is `.`: dropped by the clean loop
        right; left
        rw [hrp, hdot]
        rw [goCleanChars_unrooted _ (by rw [hdot] at hne; exact hne)
          (by rw [hdot] at hroot; exact hroot)]
        have hsegs : splitSegs (['.'] : List Char) = [['.']] := rfl
        have : splitSegs (base.data ++ '/' :: (userDirChars uid ++ '/' :: ['.'])) =
            (splitSegs base.data ++ [userDirChars uid]) ++ [['.']] := by
          rw [hdot] at hsplit
          rw [hsplit, hsegs]
          simp
        rw [this, cleanLoop_append, hclean2]
        rw [cleanLoop_skip false _ _ _ (Or.inr rfl), cleanLoop_nil]
        rw [hbody2]
        rw [if_neg (by rw [hB]; simp)]
        calc (⟨base.data ++ '/' :: userDirChars uid⟩ : String)
            = ⟨(base ++ "/" ++ UserDir uid).data⟩ := by rw [hmid]
          _ = base ++ "/" ++ UserDir uid := rfl
      · by_cases hddot : goBaseChars name.data = ['.', '.']
        · -- the sanitized name is `..`: it pops the per-owner directory
          left
          rw [hrp, hddot]
          rw [goCleanChars_unrooted _ (by rw [hddot] at hne; exact hne)
            (by rw [hddot] at hroot; exact hroot)]
          have hsegs : splitSegs (['.', '.'] : List Char) = [['.', '.']] := rfl
          have : splitSegs (base.data ++ '/' :: (userDirChars uid ++ '/' :: ['.', '.'])) =
              (splitSegs base.data ++ [userDirChars uid]) ++ [['.', '.']] := by
            rw [hddot] at hsplit
            rw [hsplit, hsegs]
            simp
          rw [this, cleanLoop_append, hclean2]
          rw [cleanLoop_dotdot, cleanLoop_nil]
          have hstep : dotdotStep false (userDirChars uid :: (splitSegs base.data).reverse) =
              (splitSegs base.data).reverse := by
            unfold dotdotStep
            simp [hU.2.2.1]
          rw [hstep]
          rw [List.reverse_reverse, joinSegs_splitSegs]
          rw [if_neg hBne]
        · -- the sanitized name is an ordinary segment: it lands inside
          right; right
          refine ⟨⟨goBaseChars name.data⟩, ?_⟩
          have hGnormal : NormalSeg (goBaseChars name.data) := ⟨hGne, hdot, hddot, hGnos⟩
          rw [hrp]
          rw [goCleanChars_unrooted _ hne hroot]
          have : splitSegs (base.data ++ '/' ::
              (userDirChars uid ++ '/' :: goBaseChars name.data)) =
              (splitSegs base.data ++ [userDirChars uid]) ++ [goBaseChars name.data] := by
            rw [hsplit, splitSegs_no_slash _ hGnos]
            simp
          rw [this, cleanLoop_append, hclean2]
          rw [cleanLoop_push false _ _ _ hGnormal.1 hGnormal.2.1 hGnormal.2.2.1, cleanLoop_nil]
          rw [List.reverse_cons, List.reverse_cons, List.reverse_reverse]
          rw [joinSegs_append_last (splitSegs base.data ++ [userDirChars uid])
            (goBaseChars name.data) (by simp)]
          rw [joinSegs_append_last (splitSegs base.data) (userDirChars uid) (splitSegs_ne_nil _)]
          rw [joinSegs_splitSegs]
          rw [if_neg (by rw [hB]; simp)]
          have hfin : (base ++ "/" ++ UserDir uid ++ "/" ++ (⟨goBaseChars name.data⟩ : String)).data
              = (base.data ++ '/' :: userDirChars uid) ++ '/' :: goBaseChars name.data := by
            simp only [String.data_append, List.append_assoc]
            rfl
          calc (⟨(base.data ++ '/' :: userDirChars uid) ++ '/' :: goBaseChars name.data⟩ : String)
              = ⟨(base ++ "/" ++ UserDir uid ++ "/" ++ (⟨goBaseChars name.data⟩ : String)).data⟩ := by
                rw [hfin]
            _ = base ++ "/" ++ UserDir uid ++ "/" ++ (⟨goBaseChars name.data⟩ : String) := rfl
  · decide

/-- Witness for the universal part of the amended C8: a concrete raw name
for owner 7 under root `uploads` lands in one of the three allowed places. -/
theorem resolvePath_stays_in_root_witness :
    resolvePath "uploads" 7 "b.txt" = "uploads" ∨
    resolvePath "uploads" 7 "b.txt" = "uploads" ++ "/" ++ UserDir 7 ∨
    ∃ t : String, resolvePath "uploads" 7 "b.txt" = "uploads" ++ "/" ++ UserDir 7 ++ "/" ++ t :=
  resolvePath_stays_in_root.1 "uploads" 7 "b.txt" (by decide)

/-! Helper lemmas about the filesystem model and the upload record. -/

theorem fsGet_fsSet (fs : List (String × List Byte)) (p : String) (b : List Byte) :
    fsGet (fsSet fs p b) p = some b := by
  unfold fsGet fsSet
  rw [List.find?_cons_of_pos _ (by simp)]
  rfl

theorem fsGet_fsErase (fs : List (String × List Byte)) (p : String) :
    fsGet (fsErase fs p) p = none := by
  induction fs with
  | nil => rfl
  | cons e fs ih =>
    unfold fsErase at ih ⊢
    unfold fsGet at ih ⊢
    rw [List.filter_cons]
    by_cases he : (e.1 == p) = true
    · rw [if_neg (by simp [he])]
      exact ih
    · rw [if_pos (by simp [he])]
      rw [List.find?_cons_of_neg _ (by simp [he])]
      exact ih

theorem string_mk_ne_empty (l : List Char) (h : l ≠ []) : (⟨l⟩ : String) ≠ "" :=
  fun he => h (congrArg String.data he)

theorem goBaseChars_ne_nil (s : List Char) : goBaseChars s ≠ [] := by
  rcases goBaseChars_cases s with h | ⟨h, _⟩
  · rw [h]
    simp
  · exact h

theorem goCleanChars_ne_nil (s : List Char) : goCleanChars s ≠ [] := by
  unfold goCleanChars
  by_cases h0 : s = []
  · rw [if_pos h0]
    simp
  · rw [if_neg h0]
    cases hr : isRooted s with
    | true => simp [hr]
    | false =>
      simp only [hr]
      by_cases hb : joinSegs ((cleanLoop false [] (splitSegs s)).reverse) = []
      · simp [hb]
      · simp [hb]

theorem userDirChars_ne_nil (uid : Nat) : userDirChars uid ≠ [] := by
  rw [userDirChars_eq]
  simp

theorem uploadPath_ne_empty (inp : UploadInput) : uploadPath inp ≠ "" := by
  unfold uploadPath resolvePath goJoin
  cases hd : List.dropWhile (fun e => e == "")
      [inp.storagePathBase, UserDir inp.userID, goBase inp.fileName] with
  | nil =>
    exfalso
    have hall := List.dropWhile_eq_nil_iff.mp hd
    have hup : (UserDir inp.userID == "") = true := hall (UserDir inp.userID) (by simp)
    exact string_mk_ne_empty (userDirChars inp.userID) (userDirChars_ne_nil inp.userID)
      (eq_of_beq hup)
  | cons a rest =>
    exact string_mk_ne_empty _ (goCleanChars_ne_nil _)

theorem validate_uploadRecord (inp : UploadInput) (b : Bool) :
    validateFile (uploadRecord inp b) = true := by
  unfold validateFile uploadRecord
  have h1 : (goBase inp.fileName == "") = false := by
    rw [beq_eq_false_iff_ne]
    exact string_mk_ne_empty _ (goBaseChars_ne_nil _)
  have h2 : (uploadPath inp == "") = false := by
    rw [beq_eq_false_iff_ne]
    exact uploadPath_ne_empty inp
  simp [h1, h2]

/-! Claim theorems for Store (UploadFile). -/

/-- Claim C4 counterexample: the key-length check of `UploadFile` runs only
after the whole content has been copied to the final path.  On a concrete
call with an invalid 5-byte key the call does fail with the
invalid-key-length error, but a write of the content to storage occurred
before the failure, refuting "no bytes of the content are written". -/
theorem claimC4_false : ¬ ClaimC4 toyGCM := by
  intro h
  exact (h inpC4 sys0 (by decide) (by decide)).2 "uploads/user_7/a.txt" [10, 20, 30] (by decide)

/-- Claim C4 (amended): with an invalid non-empty key and no earlier I/O
failure, Store fails with the invalid-key-length error before any
cryptographic work, but only after the content has been fully written to
the final path; the file is then removed before the error returns, the
trace being exactly create, write, remove. -/
theorem UploadFile_invalid_key_fails_after_write (g : GCM) (inp : UploadInput) (s : Sys)
    (hkey : inp.encryptionKey ≠ []) (hbad : validKeyLength inp.encryptionKey = false)
    (h1 : inp.mkdirFails = false) (h2 : inp.createFails = false)
    (h3 : inp.streamAborts = false) (h4 : inp.closeFails = false) :
    (UploadFile g inp s).1 = .error .invalidKeyLength ∧
    (UploadFile g inp s).2.2 =
      [.create (uploadPath inp), .write (uploadPath inp) inp.content,
       .remove (uploadPath inp)] ∧
    fsGet (UploadFile g inp s).2.1.fs (uploadPath inp) = none ∧
    (UploadFile g inp s).2.1.db = s.db := by
  have hklen : inp.encryptionKey.length ≠ 0 := by
    intro h0
    exact hkey (List.length_eq_zero.mp h0)
  simp only [UploadFile]
  rw [if_neg (by simp [h1]), if_neg (by simp [h2]), if_neg (by simp [h3]),
    if_neg (by simp [h4]), if_pos hklen, if_pos hbad]
  exact ⟨rfl, rfl, fsGet_fsErase _ _, rfl⟩

/-- Witness for the amended C4 at the concrete call. -/
theorem UploadFile_invalid_key_fails_after_write_witness :
    (UploadFile toyGCM inpC4 sys0).1 = .error .invalidKeyLength ∧
    (UploadFile toyGCM inpC4 sys0).2.2 =
      [.create (uploadPath inpC4), .write (uploadPath inpC4) inpC4.content,
       .remove (uploadPath inpC4)] ∧
    fsGet (UploadFile toyGCM inpC4 sys0).2.1.fs (uploadPath inpC4) = none ∧
    (UploadFile toyGCM inpC4 sys0).2.1.db = sys0.db :=
  UploadFile_invalid_key_fails_after_write toyGCM inpC4 sys0 (by decide) (by decide)
    rfl rfl rfl rfl

/-- Claim C10: on an invalid non-empty key, the plaintext file already
written to the final path is removed before the error is returned — a
remove of the final path is in the trace and no content remains there. -/
theorem UploadFile_invalid_key_removes_plaintext (g : GCM) (inp : UploadInput) (s : Sys)
    (hkey : inp.encryptionKey ≠ []) (hbad : validKeyLength inp.encryptionKey = false)
    (h1 : inp.mkdirFails = false) (h2 : inp.createFails = false)
    (h3 : inp.streamAborts = false) (h4 : inp.closeFails = false) :
    (UploadFile g inp s).1 = .error .invalidKeyLength ∧
    fsGet (UploadFile g inp s).2.1.fs (uploadPath inp) = none ∧
    Event.remove (uploadPath inp) ∈ (UploadFile g inp s).2.2 := by
  have hklen : inp.encryptionKey.length ≠ 0 := by
    intro h0
    exact hkey (List.length_eq_zero.mp h0)
  simp only [UploadFile]
  rw [if_neg (by simp [h1]), if_neg (by simp [h2]), if_neg (by simp [h3]),
    if_neg (by simp [h4]), if_pos hklen, if_pos hbad]
  exact ⟨rfl, fsGet_fsErase _ _, by simp⟩

/-- Witness for C10 at the concrete call. -/
theorem UploadFile_invalid_key_removes_plaintext_witness :
    (UploadFile toyGCM inpC4 sys0).1 = .error .invalidKeyLength ∧
    fsGet (UploadFile toyGCM inpC4 sys0).2.1.fs (uploadPath inpC4) = none ∧
    Event.remove (uploadPath inpC4) ∈ (UploadFile toyGCM inpC4 sys0).2.2 :=
  UploadFile_invalid_key_removes_plaintext toyGCM inpC4 sys0 (by decide) (by decide)
    rfl rfl rfl rfl

/-- Claim C5 counterexample: on a concrete call where only the database
insert fails, `UploadFile` surfaces the metadata error but does not delete
the just-written bytes — the content is still at the final path. -/
theorem claimC5_false : ¬ ClaimC5 toyGCM := by
  intro h
  exact absurd (h inpC5 sys0 (by decide)) (by decide)

/-- Claim C5 (amended): when metadata persistence fails after a successful
write, Store surfaces the metadata error but leaves the just-written bytes
(plaintext, or the encrypted bytes if a valid key was supplied) in place
at the final path and never removes them: the stored bytes then exist with
no metadata record. -/
theorem UploadFile_metadata_failure_leaves_bytes (g : GCM) (inp : UploadInput) (s : Sys)
    (hdb : inp.dbFails = true)
    (h1 : inp.mkdirFails = false) (h2 : inp.createFails = false)
    (h3 : inp.streamAborts = false) (h4 : inp.closeFails = false)
    (h5 : inp.encryptFails = false)
    (hkey : inp.encryptionKey = [] ∨ validKeyLength inp.encryptionKey = true) :
    (UploadFile g inp s).1 = .error .metadataFailed ∧
    fsGet (UploadFile g inp s).2.1.fs (uploadPath inp) =
      some (if inp.encryptionKey.length = 0 then inp.content
            else EncryptFileBytes g inp.nonce inp.content) ∧
    (UploadFile g inp s).2.1.db = s.db ∧
    Event.remove (uploadPath inp) ∉ (UploadFile g inp s).2.2 := by
  by_cases hlen : inp.encryptionKey.length = 0
  · simp only [UploadFile]
    rw [if_neg (by simp [h1]), if_neg (by simp [h2]), if_neg (by simp [h3]),
      if_neg (by simp [h4]), if_neg (by simp [hlen]),
      if_neg (by simp [validate_uploadRecord]), if_pos hdb]
    refine ⟨rfl, ?_, rfl, by simp⟩
    rw [if_pos hlen]
    exact fsGet_fsSet _ _ _
  · have hv : validKeyLength inp.encryptionKey = true := by
      rcases hkey with hk | hk
      · exact absurd (by simp [hk] : inp.encryptionKey.length = 0) hlen
      · exact hk
    simp only [UploadFile]
    rw [if_neg (by simp [h1]), if_neg (by simp [h2]), if_neg (by simp [h3]),
      if_neg (by simp [h4]), if_pos hlen, if_neg (by simp [hv]),
      if_neg (by simp [h5]), if_neg (by simp [validate_uploadRecord]), if_pos hdb]
    refine ⟨rfl, ?_, rfl, by simp⟩
    rw [if_neg hlen]
    exact fsGet_fsSet _ _ _

/-- Witness for the amended C5 at the concrete call. -/
theorem UploadFile_metadata_failure_leaves_bytes_witness :
    (UploadFile toyGCM inpC5 sys0).1 = .error .metadataFailed ∧
    fsGet (UploadFile toyGCM inpC5 sys0).2.1.fs (uploadPath inpC5) =
      some (if inpC5.encryptionKey.length = 0 then inpC5.content
            else EncryptFileBytes toyGCM inpC5.nonce inpC5.content) ∧
    (UploadFile toyGCM inpC5 sys0).2.1.db = sys0.db ∧
    Event.remove (uploadPath inpC5) ∉ (UploadFile toyGCM inpC5 sys0).2.2 :=
  UploadFile_metadata_failure_leaves_bytes toyGCM inpC5 sys0 rfl rfl rfl rfl rfl rfl
    (Or.inl rfl)

/-- Claim C6 counterexample: `UploadFile` writes directly to the final
path, so on a stream abort with a pre-existing file there, the claim's
conjunction fails: the pre-existing bytes are gone (the path was truncated,
overwritten and then removed), not left unmodified. -/
theorem claimC6_false : ¬ ClaimC6 toyGCM := by
  intro h
  have hpre := (h inpC6 sysC6 rfl).2.2 [9, 9] (by decide)
  have hnone := (h inpC6 sysC6 rfl).1
  rw [hpre] at hnone
  exact absurd hnone (by simp)

/-- Claim C6 (amended): on a failure while streaming the content, no file
exists at the final path afterwards and no record was created; but since
Store writes directly to the final path, a file that pre-existed there has
been truncated, overwritten and deleted rather than preserved. -/
theorem UploadFile_stream_abort_cleanup (g : GCM) (inp : UploadInput) (s : Sys)
    (h1 : inp.mkdirFails = false) (h2 : inp.createFails = false)
    (habort : inp.streamAborts = true) :
    (UploadFile g inp s).1 = .error .writeFailed ∧
    fsGet (UploadFile g inp s).2.1.fs (uploadPath inp) = none ∧
    (UploadFile g inp s).2.1.db = s.db := by
  simp only [UploadFile]
  rw [if_neg (by simp [h1]), if_neg (by simp [h2]), if_pos habort]
  exact ⟨rfl, fsGet_fsErase _ _, rfl⟩

/-- Witness for the amended C6 at the concrete call, from a state with a
pre-existing file at the final path. -/
theorem UploadFile_stream_abort_cleanup_witness :
    (UploadFile toyGCM inpC6 sysC6).1 = .error .writeFailed ∧
    fsGet (UploadFile toyGCM inpC6 sysC6).2.1.fs (uploadPath inpC6) = none ∧
    (UploadFile toyGCM inpC6 sysC6).2.1.db = sysC6.db :=
  UploadFile_stream_abort_cleanup toyGCM inpC6 sysC6 rfl rfl rfl

/-! Claim theorems for Retrieve (DownloadFile) and Update (UpdateFile). -/

/-- Claim C7 counterexample: for an unencrypted record, `DownloadFile`
never checks the supplied key; a 5-byte key on an unencrypted file is
accepted and the content is returned, not the invalid-key-length error. -/
theorem claimC7_false : ¬ ClaimC7 toyGCM := by
  intro h
  exact absurd
    (h dbC7 fsC7 1 7 [1, 2, 3, 4, 5] fRecC7 (by decide) (by decide) (by decide) (by decide)
      (by decide))
    (by decide)

/-- Claim C7 (amended): Retrieve checks failures in order — not-found if no
record, unauthorized on owner mismatch regardless of any key, key-required
for an encrypted record with no key, invalid-key-length for an encrypted
record with a key of length other than 16, 24 or 32 — and for an
unencrypted record any supplied key is ignored (the behaviour equals that
of a key-less call). -/
theorem DownloadFile_error_order (g : GCM) (db : List (Nat × File))
    (fs : List (String × List Byte)) (id uid : Nat) (key : List Byte) :
    (dbFirst db id = none → DownloadFile g db fs id uid key = .error .notFound) ∧
    (∀ f, dbFirst db id = some f → f.UserID ≠ uid →
      DownloadFile g db fs id uid key = .error .unauthorized) ∧
    (∀ f, dbFirst db id = some f → f.UserID = uid → f.IsEncrypted = true → key = [] →
      DownloadFile g db fs id uid key = .error .keyRequired) ∧
    (∀ f, dbFirst db id = some f → f.UserID = uid → f.IsEncrypted = true → key ≠ [] →
      validKeyLength key = false →
      DownloadFile g db fs id uid key = .error .invalidKeyLength) ∧
    (∀ f, dbFirst db id = some f → f.UserID = uid → f.IsEncrypted = false →
      DownloadFile g db fs id uid key = DownloadFile g db fs id uid []) := by
  refine ⟨?_, ?_, ?_, ?_, ?_⟩
  · intro h
    simp only [DownloadFile, h]
  · intro f hf hne
    simp only [DownloadFile, hf]
    rw [if_pos hne]
  · intro f hf he henc hk
    simp only [DownloadFile, hf]
    rw [if_neg (by simp [he]), if_pos henc, if_pos (by simp [hk])]
  · intro f hf he henc hk hkv
    have hklen : key.length ≠ 0 := by
      intro h0
      exact hk (List.length_eq_zero.mp h0)
    simp only [DownloadFile, hf]
    rw [if_neg (by simp [he]), if_pos henc, if_neg hklen, if_pos hkv]
  · intro f hf he hnot
    simp only [DownloadFile, hf]
    rw [if_neg (by simp [he]), if_neg (by simp [hnot]), if_neg (by simp [he]),
      if_neg (by simp [hnot])]

/-- Witness for the amended C7: an owner mismatch on the concrete table is
rejected as unauthorized. -/
theorem DownloadFile_error_order_witness :
    DownloadFile toyGCM dbC7 fsC7 1 9 [] = .error .unauthorized :=
  (DownloadFile_error_order toyGCM dbC7 fsC7 1 9 []).2.1 fRecC7 (by decide) (by decide)

/-- Claim C9: an update by the owner applies exactly the non-empty patch
fields `Name`, `ContentType`, `Path`, `Description`, and always keeps the
record's `UserID` and `IsEncrypted` whatever the patch contains. -/
theorem UpdateFile_frame (f : File) (uid : Nat) (patch : File) (h : f.UserID = uid) :
    UpdateFile f uid patch =
      .ok ⟨if patch.Name ≠ "" then patch.Name else f.Name,
           if patch.ContentType ≠ "" then patch.ContentType else f.ContentType,
           if patch.Path ≠ "" then patch.Path else f.Path,
           if patch.Description ≠ "" then patch.Description else f.Description,
           f.UserID, f.IsEncrypted⟩ := by
  unfold UpdateFile
  rw [if_neg (by simp [h])]

/-- Witness for C9: the concrete owner update applies `Name` and
`Description`, keeps `ContentType` and `Path`, and preserves `UserID` and
`IsEncrypted` against a patch that tries to change both. -/
theorem UpdateFile_frame_witness :
    UpdateFile fRecC9 7 patchC9 =
      .ok ⟨if patchC9.Name ≠ "" then patchC9.Name else fRecC9.Name,
           if patchC9.ContentType ≠ "" then patchC9.ContentType else fRecC9.ContentType,
           if patchC9.Path ≠ "" then patchC9.Path else fRecC9.Path,
           if patchC9.Description ≠ "" then patchC9.Description else fRecC9.Description,
           fRecC9.UserID, fRecC9.IsEncrypted⟩ :=
  UpdateFile_frame fRecC9 7 patchC9 rfl

end GoShare
